import Mathlib

/-!
Verification of the Huffman coder in `src/main.rs` (xurtis/rust-huffman).

The embedding follows the source:
* `Tree`, `Tree.prob`, `Tree.add` mirror the `Tree` enum, `Tree::prob` and
  `impl Add for Tree` (u64 weight addition, wrapping modulo 2^64 as in release
  builds; debug builds panic on the same inputs).
* The `BinaryHeap<Tree>` priority queue is modelled at the level of its
  documented behaviour: std's heap orders purely through the `PartialOrd`
  comparisons (`<=`, `<`, `>=`) and `Tree::partial_cmp` reverses the weight
  order (`other.prob().cmp(&self.prob())`), so `pop` surfaces an element of
  minimal weight; among equal weights we fix the deterministic rule "earliest
  element of the queue sequence". `Tree::from` iterates `pop`/`push` over it.
* The `HashMap<u8, u64>` frequency table is modelled as its iteration sequence
  of (symbol, count) pairs, and the `HashMap` produced by `Tree::encode` as
  its insertion sequence (one insertion per leaf).
* `BitWriter` mirrors the `BitWriter` struct; its `inner: W` sink is modelled
  as the list of bytes written to it.
* `codeCmp` mirrors the `sort_by` comparator in `main`.
-/

namespace RustHuffman

/-- Wrap-around modulus of `u64` arithmetic. -/
def U64 : Nat := 2 ^ 64

/-- Mirrors `enum Tree { Leaf(u8, u64), Node(Box<Tree>, Box<Tree>, u64) }`. -/
inductive Tree : Type where
  | Leaf : Nat → Nat → Tree
  | Node : Tree → Tree → Nat → Tree
deriving DecidableEq, Repr

/-- Mirrors `Tree::prob`. -/
def Tree.prob : Tree → Nat
  | .Leaf _ p => p
  | .Node _ _ p => p

/-- Mirrors `impl Add for Tree`: `Node(self, right, self.prob() + right.prob())`; the
u64 addition wraps modulo 2^64 (release semantics; a debug build panics when
the mathematical sum reaches 2^64). -/
def Tree.add (s r : Tree) : Tree := .Node s r ((s.prob + r.prob) % U64)

/-- Model of `BinaryHeap::pop` for `Tree` (see the module comment): returns an
element of minimal `prob` — the earliest such element of the queue sequence —
together with the rest of the queue. -/
def popMin : List Tree → Option (Tree × List Tree)
  | [] => none
  | t :: ts =>
    match popMin ts with
    | none => some (t, [])
    | some (m, rest) => if t.prob ≤ m.prob then some (t, ts) else some (m, t :: rest)

/-- The `while queue.len() > 1 { .. }` loop of `Tree::from`: pop the two
lowest-weight trees, push their combination (`queue.push(first + second)`).
One round shrinks the queue by one, so `fuel = initial queue length` (as
supplied by `buildLoop`) always reaches the single remaining tree. -/
def buildLoopGo : Nat → List Tree → List Tree
  | 0, q => q
  | fuel + 1, q =>
    if 1 < q.length then
      match popMin q with
      | none => q
      | some (first, q1) =>
        match popMin q1 with
        | none => q1
        | some (second, q2) => buildLoopGo fuel (q2 ++ [first.add second])
    else q

/-- The loop of `Tree::from`, started with enough fuel. -/
def buildLoop (q : List Tree) : List Tree := buildLoopGo q.length q

/-- Mirrors `impl From<HashMap<u8, u64>> for Tree`. The final
`queue.pop().expect("At least one character")` panic on an empty table is
modelled as `none`. -/
def Tree.fromList (probs : List (Nat × Nat)) : Option Tree :=
  (popMin (buildLoop (probs.map fun p => Tree.Leaf p.1 p.2))).map Prod.fst

/-- The `recurse` helper of `Tree::encode`. `prefix` is a u64:
`(prefix << 1) | 0` is `2 * pre % 2^64` and `(prefix << 1) | 1` is
`2 * pre % 2^64 + 1` (the shifted value is even, so `| 1` adds one). The
result lists the `(symbol, (code, depth))` insertions in traversal order; the
`HashMap` holds one entry per distinct leaf symbol. -/
def Tree.encodeAux : Tree → Nat → Nat → List (Nat × Nat × Nat)
  | .Leaf c _, pre, depth => [(c, pre, depth)]
  | .Node l r _, pre, depth =>
      l.encodeAux (2 * pre % U64) (depth + 1) ++ r.encodeAux (2 * pre % U64 + 1) (depth + 1)

/-- Mirrors `Tree::encode`: the traversal starts with an empty prefix at depth 0. -/
def Tree.encodeList (t : Tree) : List (Nat × Nat × Nat) := t.encodeAux 0 0

/-- Mirrors `struct BitWriter<W: Write>`: the `inner` byte sink is modelled as the list
of bytes written to it so far. -/
structure BitWriter where
  buffer : Nat
  bufferLen : Nat
  output : List Nat
deriving DecidableEq, Repr

/-- Mirrors `BitWriter::new`. -/
def BitWriter.new : BitWriter := ⟨0, 0, []⟩

/-- Mirrors `BitWriter::consume_bits`, release semantics: `overflowing_shl` on the u8
buffer masks the shift amount modulo 8, the plain `(1 << to_consume) - 1`
masks likewise in a release build (for `to_consume = 8` it is an arithmetic
overflow — see `consumeBitsChecked`), `overflowing_shr` on the u64 bits masks
modulo 64. `buffer_len` is not updated, faithful to the source. -/
def BitWriter.consumeBits (w : BitWriter) (bits length : Nat) : BitWriter × Nat × Nat :=
  let toConsume := min (8 - w.bufferLen) length
  let buf := w.buffer * 2 ^ (toConsume % 8) % 256
  let buf := buf ||| (bits % 256 &&& (2 ^ (toConsume % 8) - 1))
  (⟨buf, w.bufferLen, w.output⟩, bits / 2 ^ (toConsume % 64), length - toConsume)

/-- Mirrors `BitWriter::flush_byte`: emits the buffer and resets `buffer_len` exactly
when `buffer_len == 8` (`BYTE_BITS`). -/
def BitWriter.flushByte (w : BitWriter) : BitWriter :=
  if w.bufferLen = 8 then ⟨w.buffer, 0, w.output ++ [w.buffer]⟩ else w

/-- The `while pair.1 > 0 { .. }` loop of `BitWriter::write_bits`. Whenever
`buffer_len ≤ 8` (every state the program can reach) each round either consumes
at least one bit or flushes a full buffer, so `length + 1` rounds always
suffice; the fuel truncates only runs from unreachable states with
`buffer_len > 8`, where the source would loop forever. -/
def BitWriter.writeBitsGo : Nat → BitWriter → Nat → Nat → BitWriter
  | 0, w, _, _ => w
  | fuel + 1, w, bits, length =>
    if length = 0 then w
    else
      let s := w.consumeBits bits length
      BitWriter.writeBitsGo fuel s.1.flushByte s.2.1 s.2.2

/-- Mirrors `BitWriter::write_bits` (the `io::Error` is impossible in this sink model). -/
def BitWriter.writeBits (w : BitWriter) (bits length : Nat) : BitWriter :=
  BitWriter.writeBitsGo (length + 1) w bits length

/-- Mirrors `impl Drop for BitWriter`: flush the partial byte if `buffer_len > 0`;
returns the final contents of the sink. -/
def BitWriter.close (w : BitWriter) : List Nat :=
  if 0 < w.bufferLen then w.output ++ [w.buffer] else w.output

/-- Runs a sequence of `write_bits(bits, length)` calls. -/
def BitWriter.runWrites (w : BitWriter) (reqs : List (Nat × Nat)) : BitWriter :=
  reqs.foldl (fun s p => s.writeBits p.1 p.2) w

/-- Mirrors `consume_bits` under debug (overflow-checked) semantics: the only
overflowing operation is the shift in `(1u8 << to_consume) - 1`, whose shift
amount reaches the u8 width exactly when `to_consume = 8`; `none` models that
panic. (`overflowing_shl`/`overflowing_shr` never panic, and
`length - to_consume` cannot underflow.) -/
def BitWriter.consumeBitsChecked (w : BitWriter) (bits length : Nat) :
    Option (BitWriter × Nat × Nat) :=
  let toConsume := min (8 - w.bufferLen) length
  if 8 ≤ toConsume then none
  else
    some (⟨w.buffer * 2 ^ toConsume % 256 ||| (bits % 256 &&& (2 ^ toConsume - 1)),
      w.bufferLen, w.output⟩, bits / 2 ^ toConsume, length - toConsume)

/-- The `write_bits` loop under debug (overflow-checked) semantics. -/
def BitWriter.writeBitsCheckedGo : Nat → BitWriter → Nat → Nat → Option BitWriter
  | 0, w, _, _ => some w
  | fuel + 1, w, bits, length =>
    if length = 0 then some w
    else
      match w.consumeBitsChecked bits length with
      | none => none
      | some s => BitWriter.writeBitsCheckedGo fuel s.1.flushByte s.2.1 s.2.2

/-- Mirrors `BitWriter::write_bits` under debug (overflow-checked) semantics: `none`
models a panic during the call. -/
def BitWriter.writeBitsChecked (w : BitWriter) (bits length : Nat) : Option BitWriter :=
  BitWriter.writeBitsCheckedGo (length + 1) w bits length

/-- u64 `<<` under release semantics: the shift amount is masked modulo 64 and
the value is truncated to 64 bits (a shift amount of 64 or more is an
arithmetic overflow that panics in a debug build). -/
def shl64 (x k : Nat) : Nat := x * 2 ^ (k % 64) % U64

/-- The `sort_by` comparator in `main`: entries are `(code, depth)` pairs. -/
def codeCmp (l r : Nat × Nat) : Ordering :=
  if l.2 < r.2 then compare (shl64 l.1 (r.2 - l.2)) r.1
  else compare l.1 (shl64 r.1 (l.2 - r.2))

/-! Specification-side definitions: the properties the claims talk about. -/

/-- One claim-level build process: repeatedly remove two minimal-weight trees
`a` (first) and `b` (second) from the queue, reinsert `Node(a, b)` carrying
the wrapped weight sum, until exactly one tree — the result — remains. -/
inductive HuffSteps : Multiset Tree → Tree → Prop
  | done (t : Tree) : HuffSteps {t} t
  | comb (q : Multiset Tree) (a b t : Tree) :
      a ∈ q → b ∈ q.erase a →
      (∀ c ∈ q, a.prob ≤ c.prob) →
      (∀ c ∈ q.erase a, b.prob ≤ c.prob) →
      HuffSteps (a.add b ::ₘ (q.erase a).erase b) t →
      HuffSteps q t

/-- Value of a bit string read most-significant-bit first (the order in which
`recurse` shifts path bits into the prefix). -/
def pathVal (p : List Bool) : Nat := p.foldl (fun acc b => 2 * acc + cond b 1 0) 0

/-- Root-to-leaf paths of a tree: `(symbol, path)` with `false` for a left
edge and `true` for a right edge, in traversal order. -/
def Tree.paths : Tree → List (Nat × List Bool)
  | .Leaf c _ => [(c, [])]
  | .Node l r _ =>
      (l.paths.map fun e => (e.1, false :: e.2)) ++ (r.paths.map fun e => (e.1, true :: e.2))

/-- Leaf symbols of a tree in traversal order. -/
def Tree.leafSyms : Tree → List Nat
  | .Leaf c _ => [c]
  | .Node l r _ => l.leafSyms ++ r.leafSyms

/-- Multiset of all leaf symbols across a queue of trees. -/
def symsOfQueue (q : List Tree) : Multiset Nat :=
  (q.map fun t => (t.leafSyms : Multiset Nat)).sum

/-- The code `(pattern₁, length₁)` is a prefix of `(pattern₂, length₂)` when
both patterns are read as bit strings of their own lengths. -/
def isPrefixPair (a b : Nat × Nat) : Bool :=
  a.2 ≤ b.2 && b.1 / 2 ^ (b.2 - a.2) == a.1

/-- No code entry of the list is a prefix of another entry's code. -/
def pfEntries : List (Nat × Nat × Nat) → Bool
  | [] => true
  | e :: es =>
      es.all (fun f => !isPrefixPair e.2 f.2 && !isPrefixPair f.2 e.2) && pfEntries es

/-- Weighted sum of code lengths `Σ freq[s] × length[s]` of a code list over a
frequency table. -/
def costOf (table : List (Nat × Nat)) (enc : List (Nat × Nat × Nat)) : Nat :=
  (table.map fun p =>
    p.2 * (((enc.find? fun e => e.1 = p.1).map fun e => e.2.2).getD 0)).sum

/-- Bits delivered to `write_bits`, least-significant-bit first, for a request
sequence. -/
def reqBits (reqs : List (Nat × Nat)) : List Bool :=
  (reqs.map fun p => (List.range p.2).map fun i => p.1 / 2 ^ i % 2 == 1).flatten

/-- The bits of a byte sequence, least-significant-bit first inside each byte. -/
def bytesToBits (bs : List Nat) : List Bool :=
  (bs.map fun b => (List.range 8).map fun i => b / 2 ^ i % 2 == 1).flatten

/-- Comparator modelled from the spec's words (§4.3): left-align both patterns
to the longer of the two lengths and compare the aligned values. -/
def specCodeCmp (l r : Nat × Nat) : Ordering :=
  compare (l.1 * 2 ^ (max l.2 r.2 - l.2)) (r.1 * 2 ^ (max l.2 r.2 - r.2))

/-! Concrete frequency tables used as inputs. -/

/-- The classic example table `{a:5, b:9, c:12, d:13, e:16, f:45}` with the
symbols as their ASCII codes. -/
def classicTable : List (Nat × Nat) :=
  [(97, 5), (98, 9), (99, 12), (100, 13), (101, 16), (102, 45)]

/-- Four huge weights whose pairwise sums exceed 2^64, so the combined node
weights wrap. All weights are distinct at every stage, so the build is
independent of tie-breaking. -/
def overflowTable : List (Nat × Nat) :=
  [(0, 2 ^ 63 + 1), (1, 2 ^ 63 + 2), (2, 2 ^ 63 + 3), (3, 2 ^ 63 + 4)]

/-- A flat two-bit code for the four symbols of `overflowTable`. -/
def flatCode : List (Nat × Nat × Nat) := [(0, 0, 2), (1, 1, 2), (2, 2, 2), (3, 3, 2)]

/-- Weights growing just fast enough that the queue always combines the
accumulated node with the next single leaf (every comparison strict, so the
build is independent of tie-breaking): after `[1, 2, 4]` each next weight is
`max node last + 1` where `node` is the weight already absorbed into the
accumulated node when that leaf becomes one of the two queue minima. -/
def chainWeightsGo : Nat → Nat → Nat → List Nat
  | 0, _, _ => []
  | k + 1, node, last =>
    let b := max node last + 1
    b :: chainWeightsGo k (node + last) b

/-- A 66-symbol table (symbols `0..65`) whose tree is a path of depth 65, so
the deepest code prefixes overflow the u64 accumulator. -/
def table66 : List (Nat × Nat) :=
  (List.range 66).zip ([1, 2, 4] ++ chainWeightsGo 63 3 4)

/-- The first 65 chain weights. -/
def weights65 : List Nat := [1, 2, 4] ++ chainWeightsGo 62 3 4

/-- Like `table66`, but the final weight exceeds the whole rest, so the last
combine pops the accumulated node first: the depth-65 path hangs off the left
edge of the root and the shallow symbol 65 gets code `(1, 1)`. -/
def table66L : List (Nat × Nat) :=
  (List.range 66).zip (weights65 ++ [weights65.sum + 1])

/-- The tree the builder produces for the table `{0:1, 1:2, 2:4}`. -/
def witnessTree : Tree :=
  .Node (.Node (.Leaf 0 1) (.Leaf 1 2) 3) (.Leaf 2 4) 7

end RustHuffman

namespace RustHuffman

/-! Lemmas about the queue model. -/

theorem popMin_eq_none {q : List Tree} : popMin q = none ↔ q = [] := by
  cases q with
  | nil => simp [popMin]
  | cons t ts =>
    simp only [popMin]
    cases hp : popMin ts with
    | none => simp
    | some p =>
      obtain ⟨m1, rest1⟩ := p
      by_cases hle : t.prob ≤ m1.prob <;> simp [hle]

theorem popMin_perm : ∀ {q : List Tree} {m : Tree} {rest : List Tree},
    popMin q = some (m, rest) → q.Perm (m :: rest) := by
  intro q
  induction q with
  | nil => intro m rest h; simp [popMin] at h
  | cons t ts ih =>
    intro m rest h
    simp only [popMin] at h
    cases hp : popMin ts with
    | none =>
      rw [hp] at h
      simp only [Option.some.injEq, Prod.mk.injEq] at h
      have hts : ts = [] := popMin_eq_none.mp hp
      rw [hts, ← h.1, ← h.2]
    | some p =>
      rw [hp] at h
      obtain ⟨m1, rest1⟩ := p
      by_cases hle : t.prob ≤ m1.prob
      · simp only [hle, if_true, Option.some.injEq, Prod.mk.injEq] at h
        rw [← h.1, ← h.2]
      · simp only [hle, if_false, Option.some.injEq, Prod.mk.injEq] at h
        have hperm := @ih m1 rest1 hp
        rw [← h.1, ← h.2]
        exact (hperm.cons t).trans (List.Perm.swap m1 t rest1)

theorem popMin_mem {q : List Tree} {m : Tree} {rest : List Tree}
    (h : popMin q = some (m, rest)) : m ∈ q :=
  (popMin_perm h).mem_iff.mpr (List.mem_cons_self m rest)

theorem popMin_min : ∀ {q : List Tree} {m : Tree} {rest : List Tree},
    popMin q = some (m, rest) → ∀ c ∈ q, m.prob ≤ c.prob := by
  intro q
  induction q with
  | nil => intro m rest h; simp [popMin] at h
  | cons t ts ih =>
    intro m rest h c hc
    simp only [popMin] at h
    cases hp : popMin ts with
    | none =>
      rw [hp] at h
      simp only [Option.some.injEq, Prod.mk.injEq] at h
      have hts : ts = [] := popMin_eq_none.mp hp
      rw [hts] at hc
      simp at hc
      rw [← h.1, hc]
    | some p =>
      rw [hp] at h
      obtain ⟨m1, rest1⟩ := p
      have hmin := @ih m1 rest1 hp
      by_cases hle : t.prob ≤ m1.prob
      · simp only [hle, if_true, Option.some.injEq, Prod.mk.injEq] at h
        rcases List.mem_cons.mp hc with hc | hc
        · rw [← h.1, hc]
        · exact h.1 ▸ le_trans hle (hmin c hc)
      · simp only [hle, if_false, Option.some.injEq, Prod.mk.injEq] at h
        rcases List.mem_cons.mp hc with hc | hc
        · rw [← h.1, hc]
          exact le_of_lt (lt_of_not_le hle)
        · exact h.1 ▸ hmin c hc

theorem popMin_some_of_ne_nil {q : List Tree} (hq : q ≠ []) :
    ∃ p, popMin q = some p := by
  cases hp : popMin q with
  | none => exact absurd (popMin_eq_none.mp hp) hq
  | some p => exact ⟨p, rfl⟩

theorem buildLoopGo_length : ∀ (fuel : Nat) (q : List Tree), q ≠ [] →
    q.length ≤ fuel + 1 → (buildLoopGo fuel q).length = 1 := by
  intro fuel
  induction fuel with
  | zero =>
    intro q hq hlen
    have : 1 ≤ q.length := List.length_pos.mpr hq
    simp only [buildLoopGo]
    omega
  | succ fuel ih =>
    intro q hq hlen
    by_cases h1 : 1 < q.length
    · obtain ⟨⟨a, q1⟩, ha⟩ := popMin_some_of_ne_nil hq
      have hlen1 : q.length = q1.length + 1 := (popMin_perm ha).length_eq
      have hq1 : q1 ≠ [] := by
        intro hnil
        rw [hnil] at hlen1
        simp at hlen1
        omega
      obtain ⟨⟨b, q2⟩, hb⟩ := popMin_some_of_ne_nil hq1
      have hlen2 : q1.length = q2.length + 1 := (popMin_perm hb).length_eq
      simp only [buildLoopGo, if_pos h1, ha, hb]
      refine ih (q2 ++ [a.add b]) (by simp) ?_
      simp only [List.length_append, List.length_cons, List.length_nil]
      omega
    · simp only [buildLoopGo, if_neg h1]
      have : 1 ≤ q.length := List.length_pos.mpr hq
      omega

theorem symsOfQueue_perm {q q' : List Tree} (h : q.Perm q') :
    symsOfQueue q = symsOfQueue q' :=
  (h.map _).sum_eq

theorem buildLoopGo_syms : ∀ (fuel : Nat) (q : List Tree),
    symsOfQueue (buildLoopGo fuel q) = symsOfQueue q := by
  intro fuel
  induction fuel with
  | zero => intro q; rfl
  | succ fuel ih =>
    intro q
    by_cases h1 : 1 < q.length
    · cases ha : popMin q with
      | none => simp only [buildLoopGo, if_pos h1, ha]
      | some p =>
        obtain ⟨a, q1⟩ := p
        cases hb : popMin q1 with
        | none =>
          have hq1 : q1 = [] := popMin_eq_none.mp hb
          have hlen1 : q.length = q1.length + 1 := (popMin_perm ha).length_eq
          rw [hq1] at hlen1
          simp at hlen1
          omega
        | some p2 =>
          obtain ⟨b, q2⟩ := p2
          simp only [buildLoopGo, if_pos h1, ha, hb]
          rw [ih]
          have e1 : symsOfQueue q = (a.leafSyms : Multiset Nat) + symsOfQueue q1 := by
            rw [symsOfQueue_perm (popMin_perm ha)]
            simp [symsOfQueue]
          have e2 : symsOfQueue q1 = (b.leafSyms : Multiset Nat) + symsOfQueue q2 := by
            rw [symsOfQueue_perm (popMin_perm hb)]
            simp [symsOfQueue]
          have e3 : (Tree.add a b).leafSyms = a.leafSyms ++ b.leafSyms := rfl
          have e4 : symsOfQueue (q2 ++ [a.add b]) =
              symsOfQueue q2 + ((a.leafSyms : Multiset Nat) + (b.leafSyms : Multiset Nat)) := by
            simp [symsOfQueue, List.sum_append, e3]
          rw [e4, e1, e2]
          abel
    · simp only [buildLoopGo, if_neg h1]

theorem fromList_eq_some {l : List (Nat × Nat)} {t : Tree}
    (ht : Tree.fromList l = some t) :
    buildLoop (l.map fun p => Tree.Leaf p.1 p.2) = [t] := by
  have hl : l ≠ [] := by
    intro hnil
    rw [hnil] at ht
    simp [Tree.fromList, buildLoop, buildLoopGo, popMin] at ht
  have hq : (l.map fun p => Tree.Leaf p.1 p.2) ≠ [] := by
    simpa using hl
  have hlen := buildLoopGo_length (l.map fun p => Tree.Leaf p.1 p.2).length
    (l.map fun p => Tree.Leaf p.1 p.2) hq (Nat.le_succ _)
  obtain ⟨x, hx⟩ := List.length_eq_one.mp hlen
  rw [Tree.fromList, buildLoop] at ht
  rw [buildLoop]
  rw [hx] at ht ⊢
  simp [popMin] at ht
  rw [ht]

theorem symsOfLeaves : ∀ l : List (Nat × Nat),
    symsOfQueue (l.map fun p => Tree.Leaf p.1 p.2) =
      ((l.map Prod.fst : List Nat) : Multiset Nat) := by
  intro l
  induction l with
  | nil => rfl
  | cons p ps ihp =>
    simp only [List.map_cons, symsOfQueue, List.sum_cons] at ihp ⊢
    rw [ihp, ← Multiset.cons_coe, ← Multiset.singleton_add]
    rfl

theorem fromList_leafSyms {l : List (Nat × Nat)} {t : Tree}
    (ht : Tree.fromList l = some t) :
    (t.leafSyms : Multiset Nat) = ((l.map Prod.fst : List Nat) : Multiset Nat) := by
  have hx := fromList_eq_some ht
  have hsyms := buildLoopGo_syms (l.map fun p => Tree.Leaf p.1 p.2).length
    (l.map fun p => Tree.Leaf p.1 p.2)
  rw [← buildLoop, hx] at hsyms
  have hleft : symsOfQueue [t] = (t.leafSyms : Multiset Nat) := by
    simp [symsOfQueue]
  rw [← hleft, hsyms, symsOfLeaves]

/-! The build process relation (claims C1 and C2). -/

theorem buildLoopGo_huffSteps : ∀ (fuel : Nat) (q : List Tree), q ≠ [] →
    q.length ≤ fuel + 1 →
    ∃ t, (popMin (buildLoopGo fuel q)).map Prod.fst = some t ∧ HuffSteps (↑q) t := by
  intro fuel
  induction fuel with
  | zero =>
    intro q hq hlen
    have hpos : 1 ≤ q.length := List.length_pos.mpr hq
    have h1 : q.length = 1 := le_antisymm hlen hpos
    obtain ⟨x, hx⟩ := List.length_eq_one.mp h1
    refine ⟨x, ?_, ?_⟩
    · simp [buildLoopGo, hx, popMin]
    · rw [hx]
      exact HuffSteps.done x
  | succ fuel ih =>
    intro q hq hlen
    by_cases h1 : 1 < q.length
    · obtain ⟨⟨a, q1⟩, ha⟩ := popMin_some_of_ne_nil hq
      have hlen1 : q.length = q1.length + 1 := (popMin_perm ha).length_eq
      have hq1 : q1 ≠ [] := by
        intro hnil
        rw [hnil] at hlen1
        simp at hlen1
        omega
      obtain ⟨⟨b, q2⟩, hb⟩ := popMin_some_of_ne_nil hq1
      have hlen2 : q1.length = q2.length + 1 := (popMin_perm hb).length_eq
      obtain ⟨t, hpop, hsteps⟩ := ih (q2 ++ [a.add b]) (by simp)
        (by simp only [List.length_append, List.length_cons, List.length_nil]; omega)
      refine ⟨t, ?_, ?_⟩
      · simpa only [buildLoopGo, if_pos h1, ha, hb] using hpop
      · have hcq : (↑q : Multiset Tree) = a ::ₘ (↑q1 : Multiset Tree) :=
          (Multiset.coe_eq_coe.mpr (popMin_perm ha)).trans (Multiset.cons_coe a q1).symm
        have hcq1 : (↑q1 : Multiset Tree) = b ::ₘ (↑q2 : Multiset Tree) :=
          (Multiset.coe_eq_coe.mpr (popMin_perm hb)).trans (Multiset.cons_coe b q2).symm
        have herase : (↑q : Multiset Tree).erase a = (↑q1 : Multiset Tree) := by
          rw [hcq, Multiset.erase_cons_head]
        have herase2 : ((↑q : Multiset Tree).erase a).erase b = (↑q2 : Multiset Tree) := by
          rw [herase, hcq1, Multiset.erase_cons_head]
        refine HuffSteps.comb (↑q) a b t ?_ ?_ ?_ ?_ ?_
        · exact Multiset.mem_coe.mpr (popMin_mem ha)
        · rw [herase]
          exact Multiset.mem_coe.mpr (popMin_mem hb)
        · intro c hc
          exact popMin_min ha c (Multiset.mem_coe.mp hc)
        · intro c hc
          rw [herase] at hc
          exact popMin_min hb c (Multiset.mem_coe.mp hc)
        · rw [herase2]
          have hq' : (↑(q2 ++ [a.add b]) : Multiset Tree) =
              a.add b ::ₘ (↑q2 : Multiset Tree) :=
            (Multiset.coe_eq_coe.mpr (List.perm_append_singleton _ _)).trans
              (Multiset.cons_coe _ q2).symm
          rw [← hq']
          exact hsteps
    · have hpos : 1 ≤ q.length := List.length_pos.mpr hq
      have hone : q.length = 1 := by omega
      obtain ⟨x, hx⟩ := List.length_eq_one.mp hone
      refine ⟨x, ?_, ?_⟩
      · simp [buildLoopGo, hx, popMin, h1]
      · rw [hx]
        exact HuffSteps.done x

/-- C1 (amended): for every non-empty frequency table, the built tree results
from repeatedly extracting two minimal-weight trees — the first extracted
becoming the left child, the second the right child — and reinserting an
internal node whose weight is the sum of their weights reduced modulo 2^64
(wrapping u64 addition), until one tree remains. -/
theorem c1_build_rounds (l : List (Nat × Nat)) (hl : l ≠ []) :
    ∃ t, Tree.fromList l = some t ∧
      HuffSteps (↑(l.map fun p => Tree.Leaf p.1 p.2)) t := by
  have h := buildLoopGo_huffSteps (l.map fun p => Tree.Leaf p.1 p.2).length
    (l.map fun p => Tree.Leaf p.1 p.2) (by simpa using hl) (Nat.le_succ _)
  simpa only [Tree.fromList, buildLoop] using h

/-- Witness for C1: the singleton table `{0:1}`. -/
theorem c1_build_rounds_witness :
    ∃ t, Tree.fromList [(0, 1)] = some t ∧
      HuffSteps (↑([(0, 1)].map fun p => Tree.Leaf p.1 p.2)) t :=
  c1_build_rounds [(0, 1)] (by decide)

/-- Counterexample for C1 as stated: combining the leaves `{0: 2^63}` and
`{1: 2^63 + 1}` produces an internal node whose stored weight is 1, not the
sum 2^64 + 1 of its children's weights — the u64 addition wraps. -/
theorem c1_counterexample :
    Tree.fromList [(0, 2 ^ 63), (1, 2 ^ 63 + 1)] =
      some (Tree.Node (Tree.Leaf 0 (2 ^ 63)) (Tree.Leaf 1 (2 ^ 63 + 1)) 1) ∧
    2 ^ 63 + (2 ^ 63 + 1) ≠ 1 := by decide

/-- C2: the claim asserts minimal weighted code length for every table of at
most 8 symbols. The classic six-symbol table does reach the optimal total 224,
but on four weights near 2^63 the wrapped weight sums drive the greedy choice:
the built code costs 9·2^63 + 19 while the flat two-bit prefix-free code on
the same symbols costs 8·2^63 + 20, which is smaller. -/
theorem c2_optimality_codebug :
    (Tree.fromList classicTable).map (fun t => costOf classicTable t.encodeList) =
      some 224 ∧
    (Tree.fromList overflowTable).map (fun t => costOf overflowTable t.encodeList) =
      some (9 * 2 ^ 63 + 19) ∧
    pfEntries flatCode = true ∧
    costOf overflowTable flatCode = 8 * 2 ^ 63 + 20 ∧
    8 * 2 ^ 63 + 20 < 9 * 2 ^ 63 + 19 := by decide

/-! BitWriter theorems (claims C3, C4, C6, C7, C9). -/

theorem consumeBits_state (w : BitWriter) (bits length : Nat) :
    (w.consumeBits bits length).1.bufferLen = w.bufferLen ∧
    (w.consumeBits bits length).1.output = w.output := by
  constructor <;> rfl

theorem writeBitsGo_pristine : ∀ (fuel : Nat) (w : BitWriter) (bits length : Nat),
    w.bufferLen = 0 →
    (BitWriter.writeBitsGo fuel w bits length).bufferLen = 0 ∧
    (BitWriter.writeBitsGo fuel w bits length).output = w.output := by
  intro fuel
  induction fuel with
  | zero =>
    intro w bits length h0
    simp only [BitWriter.writeBitsGo]
    exact ⟨h0, trivial⟩
  | succ fuel ih =>
    intro w bits length h0
    by_cases hl : length = 0
    · simp only [BitWriter.writeBitsGo, if_pos hl]
      exact ⟨h0, trivial⟩
    · simp only [BitWriter.writeBitsGo, if_neg hl]
      have hflush : (w.consumeBits bits length).1.flushByte = (w.consumeBits bits length).1 := by
        rw [BitWriter.flushByte, (consumeBits_state w bits length).1, h0]
        simp
      rw [hflush]
      have := ih (w.consumeBits bits length).1 (w.consumeBits bits length).2.1
        (w.consumeBits bits length).2.2 ((consumeBits_state w bits length).1.trans h0)
      exact ⟨this.1, this.2.trans (consumeBits_state w bits length).2⟩

theorem writeBits_pristine (w : BitWriter) (bits length : Nat) (h0 : w.bufferLen = 0) :
    (w.writeBits bits length).bufferLen = 0 ∧
    (w.writeBits bits length).output = w.output :=
  writeBitsGo_pristine (length + 1) w bits length h0

/-- C7: starting from `new()`, `buffer_len` is still 0 after every sequence of
`write_bits` calls, no byte is ever emitted to the sink during the calls, and
the drop-time flush condition `buffer_len > 0` never holds, so the sink stays
empty even after closing. -/
theorem c7_accumulator_stuck (reqs : List (Nat × Nat)) :
    (BitWriter.new.runWrites reqs).bufferLen = 0 ∧
    (BitWriter.new.runWrites reqs).output = [] ∧
    (BitWriter.new.runWrites reqs).close = [] := by
  have main : ∀ (rs : List (Nat × Nat)) (w : BitWriter),
      w.bufferLen = 0 → w.output = [] →
      (w.runWrites rs).bufferLen = 0 ∧ (w.runWrites rs).output = [] := by
    intro rs
    induction rs with
    | nil => intro w h0 hout; exact ⟨h0, hout⟩
    | cons r rs ihr =>
      intro w h0 hout
      have hw := writeBits_pristine w r.1 r.2 h0
      exact ihr (w.writeBits r.1 r.2) hw.1 (hw.2.trans hout)
  obtain ⟨h0, hout⟩ := main reqs BitWriter.new rfl rfl
  refine ⟨h0, hout, ?_⟩
  rw [BitWriter.close, h0]
  simpa using hout

/-- C3: the round-trip fails — after writing a single 1-bit and closing, the
sink holds no bytes at all (the partial byte is never flushed because
`buffer_len` stays 0), so reading the output back gives the empty bit
sequence instead of the written sequence `[1]`. -/
theorem c3_roundtrip_codebug :
    BitWriter.close (BitWriter.new.runWrites [(1, 1)]) = [] ∧
    bytesToBits (BitWriter.close (BitWriter.new.runWrites [(1, 1)])) = [] ∧
    reqBits [(1, 1)] = [true] := by decide

/-- C4: writing `0b101` (3 bits) then `0b11` (2 bits) and closing leaves the
sink empty — not one byte. The claim's expected byte (low 5 bits LSB-first
`1,0,1,1,1`, high bits zero) would be 29; the writer's internal buffer even
holds 23, because `consume_bits` shifts earlier bits towards the high end. -/
theorem c4_scenario_codebug :
    BitWriter.close (BitWriter.new.runWrites [(5, 3), (3, 2)]) = [] ∧
    (BitWriter.new.runWrites [(5, 3), (3, 2)]).buffer = 23 ∧
    bytesToBits [29] = [true, false, true, true, true, false, false, false] ∧
    (23 : Nat) ≠ 29 := by decide

/-- C6: a single `write_bits` call with length 8 (or anything up to 64) hits
the arithmetic overflow in `(1u8 << to_consume) - 1`: with `buffer_len = 0`
the chunk size is 8, the u8 shift amount reaches the type width, and a debug
build panics (`writeBitsChecked` returns `none`); length 7 still works. In a
release build the masked shift makes the mask 0 and the 8 bits are silently
dropped: writing 0xFF with length 8 leaves the writer in its initial state. -/
theorem c6_shift_overflow_codebug :
    BitWriter.writeBitsChecked BitWriter.new 0 8 = none ∧
    (BitWriter.writeBitsChecked BitWriter.new 0 7).isSome = true ∧
    BitWriter.writeBits BitWriter.new 255 8 = BitWriter.new := by decide

/-- C9: a single-symbol table yields a single leaf (no internal node), its
derived code is the one entry `(symbol, (0, 0))` with bit length 0, and a
`write_bits` call of length 0 leaves any writer state unchanged (no bits
emitted). -/
theorem c9_single_symbol (c w : Nat) (st : BitWriter) (b : Nat) :
    Tree.fromList [(c, w)] = some (Tree.Leaf c w) ∧
    (Tree.Leaf c w).encodeList = [(c, 0, 0)] ∧
    st.writeBits b 0 = st := ⟨rfl, rfl, rfl⟩

/-- C8: tree building fails exactly on the empty table: `Tree::from` reaches
the `expect("At least one character")` panic (modelled as `none`) if and only
if the frequency table has no entries. -/
theorem c8_empty_input (l : List (Nat × Nat)) : (Tree.fromList l).isSome ↔ l ≠ [] := by
  constructor
  · intro h hnil
    rw [hnil] at h
    simp [Tree.fromList, buildLoop, buildLoopGo, popMin] at h
  · intro hl
    have hq : (l.map fun p => Tree.Leaf p.1 p.2) ≠ [] := by simpa using hl
    have hlen := buildLoopGo_length (l.map fun p => Tree.Leaf p.1 p.2).length
      (l.map fun p => Tree.Leaf p.1 p.2) hq (Nat.le_succ _)
    obtain ⟨x, hx⟩ := List.length_eq_one.mp hlen
    rw [Tree.fromList, buildLoop, hx]
    simp [popMin]

/-! The presentation comparator (claim C10). -/

theorem shl64_eq_of_lt {x k d : Nat} (hx : x < 2 ^ d) (hdk : d + k ≤ 64) :
    shl64 x k = x * 2 ^ k := by
  by_cases hk : k = 64
  · have hd : d = 0 := by omega
    have hx0 : x = 0 := by
      rw [hd] at hx
      omega
    rw [hx0, hk]
    rfl
  · have hk64 : k < 64 := by omega
    rw [shl64, Nat.mod_eq_of_lt hk64, U64, Nat.mod_eq_of_lt]
    calc x * 2 ^ k < 2 ^ d * 2 ^ k :=
          mul_lt_mul_of_pos_right hx (pow_pos (by norm_num) k)
      _ = 2 ^ (d + k) := (pow_add 2 d k).symm
      _ ≤ 2 ^ 64 := Nat.pow_le_pow_right (by norm_num) hdk

/-- C10 (amended): for code entries whose lengths are at most 64 and whose
patterns fit their lengths — as holds for every derived entry that did not
overflow the u64 accumulator — the presentation comparator equals the
spec-side comparator that left-aligns the shorter pattern to the longer length
before comparing. -/
theorem c10_left_aligned (lc ld rc rd : Nat) (hl : lc < 2 ^ ld) (hr : rc < 2 ^ rd)
    (hld : ld ≤ 64) (hrd : rd ≤ 64) :
    codeCmp (lc, ld) (rc, rd) = specCodeCmp (lc, ld) (rc, rd) := by
  rw [codeCmp, specCodeCmp]
  by_cases h : ld < rd
  · rw [if_pos h]
    have hmax : max ld rd = rd := Nat.max_eq_right h.le
    rw [hmax, shl64_eq_of_lt hl (by omega), Nat.sub_self, pow_zero, Nat.mul_one]
  · rw [if_neg h]
    have hmax : max ld rd = ld := Nat.max_eq_left (by omega)
    rw [hmax, shl64_eq_of_lt hr (by omega), Nat.sub_self, pow_zero, Nat.mul_one]

/-- Witness for C10: the entries `(1, 2)` and `(1, 1)`. -/
theorem c10_left_aligned_witness :
    codeCmp (1, 2) (1, 1) = specCodeCmp (1, 2) (1, 1) :=
  c10_left_aligned 1 2 1 1 (by decide) (by decide) (by decide) (by decide)

set_option maxRecDepth 40000 in
/-- Counterexample for C10 as stated: the 66-symbol table `table66L` derives
the entries `(1, 1)` (symbol 65) and `(2^64 - 4, 65)` (symbol 0). Their length
difference is 64, so the u64 shift amount is masked to 0 (it panics in a debug
build): the comparator answers `lt` while the left-aligned binary-fraction
comparison of the claim answers `gt`. -/
theorem c10_counterexample :
    (Tree.fromList table66L).map (fun t =>
      (t.encodeList.find? fun e => e.1 = 65, t.encodeList.find? fun e => e.1 = 0)) =
      some (some (65, 1, 1), some (0, 2 ^ 64 - 4, 65)) ∧
    codeCmp (1, 1) (2 ^ 64 - 4, 65) = Ordering.lt ∧
    specCodeCmp (1, 1) (2 ^ 64 - 4, 65) = Ordering.gt := by decide

set_option maxRecDepth 40000 in
/-- Counterexample for C5 as stated: in the 66-symbol table `table66` the tree
has depth 65, the u64 code accumulator drops the leading path bit of symbol 0,
and the stored entry `(2^64 - 4, 65)` has the entry `(0, 1)` of symbol 65 as a
proper prefix. -/
theorem c5_counterexample :
    (Tree.fromList table66).map (fun t =>
      (t.encodeList.find? fun e => e.1 = 65, t.encodeList.find? fun e => e.1 = 0)) =
      some (some (65, 0, 1), some (0, 2 ^ 64 - 4, 65)) ∧
    isPrefixPair (0, 1) (2 ^ 64 - 4, 65) = true := by decide

/-! Path-value arithmetic (claim C5). -/

theorem pathVal_acc : ∀ (p : List Bool) (acc : Nat),
    p.foldl (fun a b => 2 * a + cond b 1 0) acc = acc * 2 ^ p.length + pathVal p := by
  intro p
  induction p with
  | nil => intro acc; simp [pathVal]
  | cons b p ih =>
    intro acc
    have hcons : pathVal (b :: p) = cond b 1 0 * 2 ^ p.length + pathVal p := by
      rw [pathVal, List.foldl_cons, ih]
      simp
    rw [List.foldl_cons, ih, hcons, List.length_cons]
    ring

theorem pathVal_cons (b : Bool) (p : List Bool) :
    pathVal (b :: p) = cond b 1 0 * 2 ^ p.length + pathVal p := by
  rw [pathVal, List.foldl_cons, pathVal_acc]
  simp

theorem pathVal_lt : ∀ p : List Bool, pathVal p < 2 ^ p.length := by
  intro p
  induction p with
  | nil => simp [pathVal]
  | cons b p ih =>
    rw [pathVal_cons, List.length_cons, pow_succ]
    cases b <;> simp <;> omega

theorem pathVal_append (p q : List Bool) :
    pathVal (p ++ q) = pathVal p * 2 ^ q.length + pathVal q := by
  rw [pathVal, List.foldl_append, pathVal_acc]
  rfl

theorem pathVal_div (p : List Bool) (k : Nat) (hk : k ≤ p.length) :
    pathVal p / 2 ^ (p.length - k) = pathVal (p.take k) := by
  have hsplit := pathVal_append (p.take k) (p.drop k)
  rw [List.take_append_drop] at hsplit
  have hdlen : (p.drop k).length = p.length - k := List.length_drop k p
  have hYlt : pathVal (p.drop k) < 2 ^ (p.length - k) := by
    have := pathVal_lt (p.drop k)
    rwa [hdlen] at this
  rw [hsplit, hdlen, Nat.add_comm, Nat.add_mul_div_right _ _ (pow_pos (by norm_num) _),
    Nat.div_eq_of_lt hYlt, Nat.zero_add]

theorem pathVal_inj : ∀ {p q : List Bool}, p.length = q.length →
    pathVal p = pathVal q → p = q := by
  intro p
  induction p with
  | nil =>
    intro q hlen _
    exact (List.length_eq_zero.mp hlen.symm).symm
  | cons b p ih =>
    intro q hlen hval
    cases q with
    | nil => simp at hlen
    | cons c q1 =>
      simp only [List.length_cons] at hlen
      have hlen1 : p.length = q1.length := by omega
      rw [pathVal_cons, pathVal_cons, hlen1] at hval
      have h1 := pathVal_lt p
      have h2 := pathVal_lt q1
      rw [hlen1] at h1
      have hbc : b = c ∧ pathVal p = pathVal q1 := by
        cases b <;> cases c <;> simp at hval ⊢ <;> omega
      rw [hbc.1, ih hlen1 hbc.2]

theorem prefix_of_div {p q : List Bool} (hle : p.length ≤ q.length)
    (hd : pathVal q / 2 ^ (q.length - p.length) = pathVal p) : p <+: q := by
  rw [pathVal_div q p.length hle] at hd
  have hlen : (q.take p.length).length = p.length := by
    rw [List.length_take]
    omega
  have heq : q.take p.length = p := pathVal_inj hlen hd
  exact heq ▸ ⟨q.drop p.length, List.take_append_drop _ _⟩

theorem consPrefixIff {a b : Bool} {l1 l2 : List Bool} :
    (a :: l1) <+: (b :: l2) ↔ a = b ∧ l1 <+: l2 := by
  constructor
  · rintro ⟨s, hs⟩
    rw [List.cons_append] at hs
    injection hs with h1 h2
    exact ⟨h1, s, h2⟩
  · rintro ⟨rfl, s, hs⟩
    exact ⟨s, by rw [List.cons_append, hs]⟩

/-! Lemmas about root-to-leaf paths (claim C5). -/

theorem paths_map_fst : ∀ t : Tree, t.paths.map Prod.fst = t.leafSyms := by
  intro t
  induction t with
  | Leaf c w => rfl
  | Node l r w ihl ihr =>
    simp only [Tree.paths, Tree.leafSyms, List.map_append, List.map_map]
    rw [← ihl, ← ihr]
    rfl

theorem paths_pairwise : ∀ t : Tree,
    t.paths.Pairwise (fun a b => ¬ a.2 <+: b.2 ∧ ¬ b.2 <+: a.2) := by
  intro t
  induction t with
  | Leaf c w => simp [Tree.paths]
  | Node l r w ihl ihr =>
    rw [Tree.paths, List.pairwise_append]
    refine ⟨?_, ?_, ?_⟩
    · rw [List.pairwise_map]
      refine ihl.imp ?_
      intro a b hab
      exact ⟨fun hpre => hab.1 (consPrefixIff.mp hpre).2,
        fun hpre => hab.2 (consPrefixIff.mp hpre).2⟩
    · rw [List.pairwise_map]
      refine ihr.imp ?_
      intro a b hab
      exact ⟨fun hpre => hab.1 (consPrefixIff.mp hpre).2,
        fun hpre => hab.2 (consPrefixIff.mp hpre).2⟩
    · intro x hx y hy
      obtain ⟨a, _, rfl⟩ := List.mem_map.mp hx
      obtain ⟨b, _, rfl⟩ := List.mem_map.mp hy
      exact ⟨fun hpre => by simpa using (consPrefixIff.mp hpre).1,
        fun hpre => by simpa using (consPrefixIff.mp hpre).1⟩

theorem mod_mul_add_mod (a b c m : Nat) : (a % m * b + c) % m = (a * b + c) % m :=
  Nat.ModEq.add_right c (Nat.ModEq.mul_right b (Nat.mod_modEq a m))

theorem encodeAux_paths : ∀ (t : Tree) (pre d : Nat), pre < U64 →
    t.encodeAux pre d = t.paths.map fun e =>
      (e.1, (pre * 2 ^ e.2.length + pathVal e.2) % U64, d + e.2.length) := by
  intro t
  induction t with
  | Leaf c w =>
    intro pre d hpre
    simp [Tree.encodeAux, Tree.paths, pathVal, Nat.mod_eq_of_lt hpre]
  | Node l r w ihl ihr =>
    intro pre d hpre
    have hU : 0 < U64 := by rw [U64]; norm_num
    have hpre1 : 2 * pre % U64 < U64 := Nat.mod_lt _ hU
    have heven : 2 * pre % U64 % 2 = 0 := by
      rw [Nat.mod_mod_of_dvd _ (by rw [U64]; norm_num : (2 : Nat) ∣ U64)]
      simp [Nat.mul_mod_right]
    have hpre2 : 2 * pre % U64 + 1 < U64 := by
      rcases Nat.lt_or_ge (2 * pre % U64 + 1) U64 with h | h
      · exact h
      · exfalso
        have hmax : 2 * pre % U64 = U64 - 1 := by omega
        rw [hmax, U64] at heven
        norm_num at heven
    rw [Tree.encodeAux, Tree.paths, ihl _ (d + 1) hpre1, ihr _ (d + 1) hpre2,
      List.map_append, List.map_map, List.map_map]
    congr 1
    · congr 1
      funext e
      simp only [Function.comp_apply, List.length_cons, pathVal_cons]
      refine congrArg (fun x => (e.1, x)) ?_
      refine congrArg₂ (fun x y => (x, y)) ?_ (by omega)
      rw [mod_mul_add_mod]
      simp only [cond_false, Nat.zero_mul, Nat.zero_add]
      ring_nf
    · congr 1
      funext e
      simp only [Function.comp_apply, List.length_cons, pathVal_cons]
      refine congrArg (fun x => (e.1, x)) ?_
      refine congrArg₂ (fun x y => (x, y)) ?_ (by omega)
      rw [Nat.add_mul, Nat.one_mul, Nat.add_assoc, mod_mul_add_mod]
      simp only [cond_true, Nat.one_mul]
      ring_nf

theorem encodeList_paths (t : Tree) :
    t.encodeList = t.paths.map fun e => (e.1, pathVal e.2 % U64, e.2.length) := by
  rw [Tree.encodeList, encodeAux_paths t 0 0 (by rw [U64]; norm_num)]
  congr 1
  funext e
  simp

/-- C5 (amended): for every frequency table with distinct symbols whose built
tree yields only code depths of at most 64 (no u64 prefix truncation), the
derived code has exactly one entry per distinct symbol of the table, and no
entry's bit pattern, taken at its own length, is a prefix of another
entry's. -/
theorem c5_prefix_free (l : List (Nat × Nat)) (t : Tree)
    (ht : Tree.fromList l = some t)
    (hnd : (l.map Prod.fst).Nodup)
    (hdep : ∀ e ∈ t.encodeList, e.2.2 ≤ 64) :
    (t.encodeList.map Prod.fst).Perm (l.map Prod.fst) ∧
    (t.encodeList.map Prod.fst).Nodup ∧
    ∀ e1 ∈ t.encodeList, ∀ e2 ∈ t.encodeList, e1.1 ≠ e2.1 →
      isPrefixPair e1.2 e2.2 = false := by
  have hfst : t.encodeList.map Prod.fst = t.leafSyms := by
    rw [encodeList_paths, List.map_map]
    have hco : (Prod.fst ∘ fun e : Nat × List Bool =>
        (e.1, pathVal e.2 % U64, e.2.length)) = Prod.fst := funext fun e => rfl
    rw [hco, paths_map_fst]
  have hperm : (t.encodeList.map Prod.fst).Perm (l.map Prod.fst) := by
    rw [hfst]
    exact Multiset.coe_eq_coe.mp (fromList_leafSyms ht)
  refine ⟨hperm, hperm.nodup_iff.mpr hnd, ?_⟩
  intro e1 h1 e2 h2 hne
  rw [encodeList_paths] at h1 h2
  obtain ⟨a, ha, rfl⟩ := List.mem_map.mp h1
  obtain ⟨b, hb, rfl⟩ := List.mem_map.mp h2
  simp only [ne_eq] at hne
  have hne2 : a ≠ b := by
    intro h
    rw [h] at hne
    exact hne rfl
  have hsym : Symmetric (fun a b : Nat × List Bool => ¬ a.2 <+: b.2 ∧ ¬ b.2 <+: a.2) :=
    fun x y h => ⟨h.2, h.1⟩
  have hnp := List.Pairwise.forall hsym (paths_pairwise t) ha hb hne2
  have hd1 : a.2.length ≤ 64 := by
    have := hdep _ (by
      rw [encodeList_paths]
      exact List.mem_map_of_mem _ ha)
    simpa using this
  have hd2 : b.2.length ≤ 64 := by
    have := hdep _ (by
      rw [encodeList_paths]
      exact List.mem_map_of_mem _ hb)
    simpa using this
  have hv1 : pathVal a.2 % U64 = pathVal a.2 := by
    refine Nat.mod_eq_of_lt (lt_of_lt_of_le (pathVal_lt a.2) ?_)
    rw [U64]
    exact Nat.pow_le_pow_right (by norm_num) hd1
  have hv2 : pathVal b.2 % U64 = pathVal b.2 := by
    refine Nat.mod_eq_of_lt (lt_of_lt_of_le (pathVal_lt b.2) ?_)
    rw [U64]
    exact Nat.pow_le_pow_right (by norm_num) hd2
  by_contra hcon
  have htrue : isPrefixPair (pathVal a.2 % U64, a.2.length)
      (pathVal b.2 % U64, b.2.length) = true := by
    revert hcon
    cases isPrefixPair (pathVal a.2 % U64, a.2.length) (pathVal b.2 % U64, b.2.length) <;>
      simp
  rw [isPrefixPair] at htrue
  simp only [Bool.and_eq_true, decide_eq_true_eq, beq_iff_eq] at htrue
  obtain ⟨hle, hdiv⟩ := htrue
  rw [hv1, hv2] at hdiv
  exact hnp.1 (prefix_of_div hle hdiv)

/-- Witness for C5 (amended): the table `{0:1, 1:2, 2:4}`. -/
theorem c5_prefix_free_witness :
    (witnessTree.encodeList.map Prod.fst).Perm ([(0, 1), (1, 2), (2, 4)].map Prod.fst) ∧
    (witnessTree.encodeList.map Prod.fst).Nodup ∧
    ∀ e1 ∈ witnessTree.encodeList, ∀ e2 ∈ witnessTree.encodeList, e1.1 ≠ e2.1 →
      isPrefixPair e1.2 e2.2 = false :=
  c5_prefix_free [(0, 1), (1, 2), (2, 4)] witnessTree (by decide) (by decide) (by decide)

end RustHuffman
